import Mathlib

/-!
Verification of the nested-comment tree reconstruction and vote-toggle engine
of a serialized-fiction publishing web application.

The embedding follows the TypeScript source:
* `Comment`, `Episode`, `UserRole` mirror the interfaces in `src/types.ts`
  (`likes`/`dislikes` are arrays of user-id strings in the source, so they are
  `List String` here; `createdAt` is a `Date.now()` millisecond count, a `Nat`).
* `toggleVote` is the per-comment body of `StorageService.toggleCommentVote`;
  `toggleVoteInList` is its `comments.map` layer and `toggleCommentVote` its
  `episodes.map` layer.
* `mkNewComment`/`addComment` mirror `StorageService.addComment`; the fresh id
  produced by the external document store's id generator and the current time
  enter as parameters `freshId`/`now`.
* `childrenOf`/`buildAux`/`buildForest` mirror the `CommentTree` component:
  `comments.filter(c => c.parentId === parentId).sort((a,b) => a.createdAt -
  b.createdAt)` followed by recursive rendering of each child's subtree with
  the full comment list.  JavaScript `Array.prototype.sort` with this numeric
  comparator is, per the ECMAScript specification, a stable ascending sort by
  `createdAt`; a sorted stable result is unique, so it is modelled by the
  stable `List.insertionSort`.  The source recursion carries no decreasing
  argument (it can diverge on cyclic `parentId` data that is reachable, which
  cannot be built through the UI); the embedding makes the recursion depth
  explicit with a fuel parameter, and `buildForest` runs it with fuel
  `length + 1`, which is proven sufficient for all inputs with distinct ids.
-/

namespace PPBlog

/-- Mirrors `enum UserRole` in `src/types.ts`. -/
inductive UserRole where
  | reader
  | author
  | admin
deriving DecidableEq, Repr

/-- Mirrors the `'like' | 'dislike'` argument of `toggleCommentVote`. -/
inductive VoteType where
  | like
  | dislike
deriving DecidableEq, Repr

/-- Mirrors `interface Comment` in `src/types.ts`. -/
structure Comment where
  id : String
  episodeId : String
  userId : String
  username : String
  userRole : UserRole
  content : String
  createdAt : Nat
  parentId : Option String
  likes : List String
  dislikes : List String
deriving DecidableEq, Repr

/-- Mirrors the `'published' | 'draft'` status of `interface Episode`. -/
inductive EpisodeStatus where
  | published
  | draft
deriving DecidableEq, Repr

/-- Mirrors `interface Episode` in `src/types.ts`. -/
structure Episode where
  id : String
  storyId : String
  title : String
  content : String
  createdAt : Nat
  updatedAt : Option Nat
  likes : List String
  comments : List Comment
  status : EpisodeStatus
  views : Nat
deriving DecidableEq, Repr

/-- The per-comment body of `StorageService.toggleCommentVote`
(`src/unnamed/part_002`): copy `likes`/`dislikes`, branch on the vote type,
toggle membership of `userId`, and on an add remove the user from the
opposite list (`filter(id => id !== userId)`). -/
def toggleVote (comment : Comment) (userId : String) (voteType : VoteType) : Comment :=
  let likes := comment.likes
  let dislikes := comment.dislikes
  match voteType with
  | .like =>
    if likes.contains userId then
      { comment with likes := likes.filter (fun i => i != userId) }
    else
      { comment with
          likes := likes ++ [userId],
          dislikes := dislikes.filter (fun i => i != userId) }
  | .dislike =>
    if dislikes.contains userId then
      { comment with dislikes := dislikes.filter (fun i => i != userId) }
    else
      { comment with
          dislikes := dislikes ++ [userId],
          likes := likes.filter (fun i => i != userId) }

/-- The `ep.comments.map(comment => ...)` layer of `toggleCommentVote`: only
the comment whose `id` equals `commentId` is replaced by its toggled copy. -/
def toggleVoteInList (comments : List Comment) (commentId userId : String)
    (voteType : VoteType) : List Comment :=
  comments.map fun comment =>
    if comment.id == commentId then toggleVote comment userId voteType else comment

/-- The `story.episodes.map(ep => ...)` layer of `toggleCommentVote`: only the
episode whose `id` equals `episodeId` has its comment collection rewritten.
(The surrounding `getDoc`/`updateDoc` read-modify-write on the story document
is the external store boundary; a missing story document leaves the store
untouched.) -/
def toggleCommentVote (episodes : List Episode) (episodeId commentId userId : String)
    (voteType : VoteType) : List Episode :=
  episodes.map fun ep =>
    if ep.id == episodeId then
      { ep with comments := toggleVoteInList ep.comments commentId userId voteType }
    else ep

/-- Mirrors `Omit<Comment, 'id' | 'createdAt' | 'likes' | 'dislikes'>`, the
caller-supplied part of a new comment in `StorageService.addComment`. -/
structure CommentData where
  episodeId : String
  userId : String
  username : String
  userRole : UserRole
  content : String
  parentId : Option String
deriving DecidableEq, Repr

/-- The `newComment` object built by `StorageService.addComment`: the spread of
the caller's data plus `id` (from the store's id generator, passed in as
`freshId`), `createdAt` (`Date.now()`, passed in as `now`) and empty vote
lists. -/
def mkNewComment (commentData : CommentData) (freshId : String) (now : Nat) : Comment :=
  { id := freshId
    episodeId := commentData.episodeId
    userId := commentData.userId
    username := commentData.username
    userRole := commentData.userRole
    content := commentData.content
    createdAt := now
    parentId := commentData.parentId
    likes := []
    dislikes := [] }

/-- The `story.episodes.map(ep => ...)` layer of `StorageService.addComment`:
the new comment is appended to the matching episode's comment array.  No field
of the caller's data, `parentId` included, is inspected or validated. -/
def addComment (episodes : List Episode) (episodeId : String) (commentData : CommentData)
    (freshId : String) (now : Nat) : List Episode :=
  episodes.map fun ep =>
    if ep.id == episodeId then
      { ep with comments := ep.comments ++ [mkNewComment commentData freshId now] }
    else ep

/-- The documented invariants of the vote lists: each is duplicate-free and no
user id is in both at once (spec 3, data model of `Comment`). -/
def VoteInv (c : Comment) : Prop :=
  c.likes.Nodup ∧ c.dislikes.Nodup ∧ ∀ u, u ∈ c.likes → u ∉ c.dislikes

/-- A finite sequence of `toggleVote` calls applied to one comment. -/
def applyVotes (c : Comment) (ops : List (String × VoteType)) : Comment :=
  ops.foldl (fun acc op => toggleVote acc op.1 op.2) c

/-- The comparator `(a, b) => a.createdAt - b.createdAt` of `CommentTree`,
read as the ordering it induces. -/
def createdAtLE (a b : Comment) : Prop := a.createdAt ≤ b.createdAt

instance : DecidableRel createdAtLE := fun a b => Nat.decLe a.createdAt b.createdAt

instance : IsTrans Comment createdAtLE := ⟨fun _ _ _ hab hbc => Nat.le_trans hab hbc⟩

instance : IsTotal Comment createdAtLE := ⟨fun a b => Nat.le_total a.createdAt b.createdAt⟩

/-- The `childComments` computation of the `CommentTree` component
(`src/unnamed/part_005`): filter the full collection to the comments whose
`parentId` equals the given value, then stable-sort ascending by `createdAt`. -/
def childrenOf (comments : List Comment) (parentId : Option String) : List Comment :=
  (comments.filter (fun c => c.parentId == parentId)).insertionSort createdAtLE

mutual
/-- One rendered comment node: its `Comment` payload and the forest of its
rendered replies (`CommentTree comments={comments} parentId={comment.id}`). -/
inductive CTree where
  | node (payload : Comment) (children : CForest)

/-- A rendered list of sibling comment nodes. -/
inductive CForest where
  | nil
  | cons (t : CTree) (rest : CForest)
end

/-- Builds the sibling forest for a list of already-selected children, giving
each child the subtree produced by `g`. -/
def forestOfChildren (g : Comment → CForest) : List Comment → CForest
  | [] => .nil
  | c :: cs => .cons (.node c (g c)) (forestOfChildren g cs)

/-- The recursion of `CommentTree`: for a `parentId` value, render each child
in `childrenOf` with its own recursively rendered subtree.  The source passes
the full `comments` list to every recursive call and has no decreasing
argument; the embedding bounds the recursion depth with `fuel`. -/
def buildAux (comments : List Comment) : Nat → Option String → CForest
  | 0, _ => .nil
  | fuel + 1, parentId =>
    forestOfChildren (fun c => buildAux comments fuel (some c.id)) (childrenOf comments parentId)

/-- The whole rendered comment forest: the root call `CommentTree
comments={episodeComments} parentId={null}`, with fuel `length + 1`, which
suffices whenever ids are pairwise distinct (see the fuel-stability theorem). -/
def buildForest (comments : List Comment) : CForest :=
  buildAux comments (comments.length + 1) none

/-- The payload of a node. -/
def CTree.payload : CTree → Comment
  | .node c _ => c

/-- The children forest of a node. -/
def CTree.children : CTree → CForest
  | .node _ f => f

mutual
/-- All nodes of a tree: the node itself and every node of its subtrees. -/
def treeNodes : CTree → List CTree
  | .node c kids => .node c kids :: forestNodes kids

/-- All nodes of a forest, root nodes included. -/
def forestNodes : CForest → List CTree
  | .nil => []
  | .cons t rest => treeNodes t ++ forestNodes rest
end

/-- The comments at the top level of a forest, in rendered order. -/
def rootPayloads : CForest → List Comment
  | .nil => []
  | .cons t rest => t.payload :: rootPayloads rest

/-- Every comment displayed anywhere in a forest (with multiplicity, in
depth-first rendered order). -/
def payloadsF (f : CForest) : List Comment :=
  (forestNodes f).map CTree.payload

/-! ## The vote-toggle engine -/

theorem filter_ne_of_not_mem {u : String} {l : List String} (hu : u ∉ l) :
    l.filter (fun i => i != u) = l := by
  apply List.filter_eq_self.mpr
  intro a ha
  simp only [bne_iff_ne, ne_eq, decide_eq_true_eq]
  exact fun h => hu (h ▸ ha)

theorem not_mem_filter_ne (u : String) (l : List String) :
    u ∉ l.filter (fun i => i != u) := by
  intro h
  have := List.mem_filter.mp h
  simp at this

/-- A concrete comment used in closed instances of the theorems below. -/
def baseComment : Comment :=
  { id := "a"
    episodeId := "e"
    userId := "author1"
    username := "author1"
    userRole := UserRole.reader
    content := "text"
    createdAt := 100
    parentId := none
    likes := []
    dislikes := [] }

/-- C2 (counterexample): the claim "toggleVote(toggleVote(S, u, v), u, v) = S
for every comment state S" fails at the concrete state with likes = [] and
dislikes = ["u1"]: the first like removes "u1" from dislikes (mutual
exclusivity), and the second like does not restore it. -/
theorem toggleVote_double_cex :
    toggleVote (toggleVote { baseComment with dislikes := ["u1"] } "u1" VoteType.like)
        "u1" VoteType.like ≠ { baseComment with dislikes := ["u1"] } := by
  decide

/-- C2 (amended): for a comment state in which the acting user id is in
neither vote list, applying `toggleVote` twice in a row with the same userId
and voteType returns exactly the original comment, original `likes` and
`dislikes` included. -/
theorem toggleVote_double_restore (c : Comment) (u : String) (vt : VoteType)
    (hl : u ∉ c.likes) (hd : u ∉ c.dislikes) :
    toggleVote (toggleVote c u vt) u vt = c := by
  cases vt <;>
    simp [toggleVote, hl, hd, List.filter_append, filter_ne_of_not_mem hl,
      filter_ne_of_not_mem hd]

/-- C2 (witness): the amended double-toggle identity at a concrete comment. -/
theorem toggleVote_double_restore_witness :
    toggleVote (toggleVote baseComment "u1" VoteType.like) "u1" VoteType.like = baseComment :=
  toggleVote_double_restore baseComment "u1" VoteType.like (by decide) (by decide)

theorem toggleVote_voteInv (c : Comment) (u : String) (vt : VoteType) (h : VoteInv c) :
    VoteInv (toggleVote c u vt) := by
  obtain ⟨hln, hdn, hcross⟩ := h
  cases vt
  case like =>
    by_cases hmem : u ∈ c.likes
    · have hc : c.likes.contains u = true := by simpa using hmem
      simp only [toggleVote, hc, if_true]
      exact ⟨hln.filter _, hdn, fun x hx => hcross x (List.mem_of_mem_filter hx)⟩
    · have hc : c.likes.contains u = false := by simpa using hmem
      simp only [toggleVote, hc, Bool.false_eq_true, if_false]
      refine ⟨by simp [List.nodup_append, hln, hmem], hdn.filter _, ?_⟩
      intro x hx hxd
      rcases List.mem_append.mp hx with h1 | h1
      · exact hcross x h1 (List.mem_of_mem_filter hxd)
      · have hxu : x = u := by simpa using h1
        subst hxu
        exact not_mem_filter_ne x c.dislikes hxd
  case dislike =>
    by_cases hmem : u ∈ c.dislikes
    · have hc : c.dislikes.contains u = true := by simpa using hmem
      simp only [toggleVote, hc, if_true]
      exact ⟨hln, hdn.filter _, fun x hx hxd => hcross x hx (List.mem_of_mem_filter hxd)⟩
    · have hc : c.dislikes.contains u = false := by simpa using hmem
      simp only [toggleVote, hc, Bool.false_eq_true, if_false]
      refine ⟨hln.filter _, by simp [List.nodup_append, hdn, hmem], ?_⟩
      intro x hx hxd
      rcases List.mem_append.mp hxd with h1 | h1
      · exact hcross x (List.mem_of_mem_filter hx) h1
      · have hxu : x = u := by simpa using h1
        subst hxu
        exact not_mem_filter_ne x c.likes hx

/-- C3: starting from any comment satisfying the documented vote invariants
(duplicate-free `likes` and `dislikes` sharing no user id), any finite
sequence of `toggleVote` calls, with arbitrary user ids and vote types,
preserves both invariants. -/
theorem applyVotes_voteInv (c : Comment) (ops : List (String × VoteType)) (h : VoteInv c) :
    VoteInv (applyVotes c ops) := by
  induction ops generalizing c with
  | nil => exact h
  | cons op rest ih => exact ih _ (toggleVote_voteInv c op.1 op.2 h)

/-- C3 (witness): the invariants hold after a concrete sequence of toggles. -/
theorem applyVotes_voteInv_witness :
    VoteInv (applyVotes baseComment
      [("u1", VoteType.like), ("u2", VoteType.dislike), ("u1", VoteType.dislike)]) :=
  applyVotes_voteInv baseComment
    [("u1", VoteType.like), ("u2", VoteType.dislike), ("u1", VoteType.dislike)]
    ⟨List.nodup_nil, List.nodup_nil, by simp [baseComment]⟩

/-- C6: for a comment (satisfying the data model's cross-field invariant) in
which `userId` is a member of `dislikes`, toggling a like moves the user: the
result has `userId` in `likes` and not in `dislikes`. -/
theorem toggleVote_switch (c : Comment) (u : String)
    (hcross : ∀ x, x ∈ c.likes → x ∉ c.dislikes) (hd : u ∈ c.dislikes) :
    u ∈ (toggleVote c u VoteType.like).likes ∧
      u ∉ (toggleVote c u VoteType.like).dislikes := by
  have hl : u ∉ c.likes := fun hu => hcross u hu hd
  have hc : c.likes.contains u = false := by simpa using hl
  simp only [toggleVote, hc, Bool.false_eq_true, if_false]
  exact ⟨by simp, not_mem_filter_ne u c.dislikes⟩

/-- C6 (witness): the like-switch at a concrete comment that was disliked. -/
theorem toggleVote_switch_witness :
    "u1" ∈ (toggleVote { baseComment with dislikes := ["u1"] } "u1" VoteType.like).likes ∧
      "u1" ∉ (toggleVote { baseComment with dislikes := ["u1"] } "u1" VoteType.like).dislikes :=
  toggleVote_switch { baseComment with dislikes := ["u1"] } "u1" (by decide) (by decide)

theorem toggleVote_preserves_fields (c : Comment) (u : String) (vt : VoteType) :
    (toggleVote c u vt).id = c.id ∧ (toggleVote c u vt).episodeId = c.episodeId ∧
    (toggleVote c u vt).userId = c.userId ∧ (toggleVote c u vt).username = c.username ∧
    (toggleVote c u vt).userRole = c.userRole ∧ (toggleVote c u vt).content = c.content ∧
    (toggleVote c u vt).createdAt = c.createdAt ∧ (toggleVote c u vt).parentId = c.parentId := by
  cases vt <;> simp only [toggleVote] <;> split <;> simp

theorem toggleVote_unlike_dislikes (c : Comment) (u : String) (hmem : u ∈ c.likes) :
    (toggleVote c u VoteType.like).dislikes = c.dislikes := by
  have hc : c.likes.contains u = true := by simpa using hmem
  simp only [toggleVote, hc, if_true]

/-- C7 (frame): one `toggleVote` pass over a comment collection relates every
input record to its output record so that the eight non-vote fields are always
unchanged, a record whose id differs from `commentId` is returned untouched,
and in the un-like branch (vote type like, user already in `likes`) `dislikes`
is unchanged as well. -/
theorem toggleVoteInList_frame (comments : List Comment) (commentId userId : String)
    (vt : VoteType) :
    List.Forall₂ (fun c c' =>
        c'.id = c.id ∧ c'.episodeId = c.episodeId ∧ c'.userId = c.userId ∧
        c'.username = c.username ∧ c'.userRole = c.userRole ∧ c'.content = c.content ∧
        c'.createdAt = c.createdAt ∧ c'.parentId = c.parentId ∧
        (c.id ≠ commentId → c' = c) ∧
        (vt = VoteType.like → userId ∈ c.likes → c'.dislikes = c.dislikes))
      comments (toggleVoteInList comments commentId userId vt) := by
  induction comments with
  | nil => exact List.Forall₂.nil
  | cons c rest ih =>
    refine List.Forall₂.cons ?_ ih
    by_cases hid : c.id = commentId
    · have hb : (c.id == commentId) = true := by simpa using hid
      simp only [hb, if_true]
      obtain ⟨h1, h2, h3, h4, h5, h6, h7, h8⟩ := toggleVote_preserves_fields c userId vt
      exact ⟨h1, h2, h3, h4, h5, h6, h7, h8, fun hne => absurd hid hne,
        fun hvt hmem => hvt ▸ toggleVote_unlike_dislikes c userId hmem⟩
    · have hb : (c.id == commentId) = false := by simpa using hid
      simp [hb]

/-- C8: the comment built by `addComment` has the supplied fresh id (distinct,
by the store generator's freshness, from every existing comment's id), the
current time as `createdAt`, empty vote lists, and exactly the caller-supplied
`parentId`; the episode update appends it verbatim to the matching episode's
collection, for every caller-supplied `parentId` value, checked against
nothing. -/
theorem addComment_spec (episodes : List Episode) (episodeId : String)
    (commentData : CommentData) (freshId : String) (now : Nat)
    (hfresh : ∀ ep ∈ episodes, ∀ c ∈ ep.comments, c.id ≠ freshId) :
    (mkNewComment commentData freshId now).id = freshId ∧
    (∀ ep ∈ episodes, ∀ c ∈ ep.comments,
      c.id ≠ (mkNewComment commentData freshId now).id) ∧
    (mkNewComment commentData freshId now).createdAt = now ∧
    (mkNewComment commentData freshId now).likes = [] ∧
    (mkNewComment commentData freshId now).dislikes = [] ∧
    (mkNewComment commentData freshId now).parentId = commentData.parentId ∧
    List.Forall₂ (fun ep ep' =>
        (ep.id ≠ episodeId → ep' = ep) ∧
        (ep.id = episodeId →
          ep'.comments = ep.comments ++ [mkNewComment commentData freshId now]))
      episodes (addComment episodes episodeId commentData freshId now) := by
  refine ⟨rfl, hfresh, rfl, rfl, rfl, rfl, ?_⟩
  induction episodes with
  | nil => exact List.Forall₂.nil
  | cons ep rest ih =>
    refine List.Forall₂.cons ?_ (ih fun e he => hfresh e (List.mem_cons_of_mem ep he))
    by_cases hid : ep.id = episodeId
    · have hb : (ep.id == episodeId) = true := by simpa using hid
      simp [hb, hid]
    · have hb : (ep.id == episodeId) = false := by simpa using hid
      simp [hb, hid]

/-- A concrete episode used in closed instances of the theorems below. -/
def baseEpisode : Episode :=
  { id := "ep1"
    storyId := "s1"
    title := "t"
    content := "body"
    createdAt := 10
    updatedAt := none
    likes := []
    comments := [baseComment]
    status := EpisodeStatus.published
    views := 0 }

/-- C8 (witness): the creation contract at a concrete episode list. -/
theorem addComment_spec_witness :
    (mkNewComment
        { episodeId := "ep1", userId := "u1", username := "u1",
          userRole := UserRole.reader, content := "hi", parentId := some "zzz" }
        "fresh" 500).parentId = some "zzz" ∧
    (mkNewComment
        { episodeId := "ep1", userId := "u1", username := "u1",
          userRole := UserRole.reader, content := "hi", parentId := some "zzz" }
        "fresh" 500).likes = [] := by
  have h := addComment_spec [baseEpisode] "ep1"
    { episodeId := "ep1", userId := "u1", username := "u1",
      userRole := UserRole.reader, content := "hi", parentId := some "zzz" }
    "fresh" 500 (by decide)
  exact ⟨h.2.2.2.2.2.1, h.2.2.2.1⟩

theorem toggleVoteInList_noop (comments : List Comment) (commentId userId : String)
    (vt : VoteType) (h : ∀ c ∈ comments, c.id ≠ commentId) :
    toggleVoteInList comments commentId userId vt = comments := by
  induction comments with
  | nil => rfl
  | cons c rest ih =>
    have hb : (c.id == commentId) = false := by
      simpa using h c (List.mem_cons_self c rest)
    simp only [toggleVoteInList, List.map_cons, hb, Bool.false_eq_true, if_false] at ih ⊢
    exact congrArg (c :: ·) (ih fun d hd => h d (List.mem_cons_of_mem c hd))

/-- C9: a `toggleCommentVote` request whose `episodeId` matches no stored
episode, or whose `commentId` matches no comment of the matching episode,
leaves every episode's stored comment collection unchanged; the operation is a
total function and signals nothing. -/
theorem toggleCommentVote_missing_noop (episodes : List Episode)
    (episodeId commentId userId : String) (vt : VoteType)
    (h : (∀ ep ∈ episodes, ep.id ≠ episodeId) ∨
         (∀ ep ∈ episodes, ep.id = episodeId → ∀ c ∈ ep.comments, c.id ≠ commentId)) :
    toggleCommentVote episodes episodeId commentId userId vt = episodes := by
  induction episodes with
  | nil => rfl
  | cons ep rest ih =>
    have hrest : toggleCommentVote rest episodeId commentId userId vt = rest := by
      refine ih ?_
      rcases h with h | h
      · exact Or.inl fun e he => h e (List.mem_cons_of_mem ep he)
      · exact Or.inr fun e he => h e (List.mem_cons_of_mem ep he)
    have hhead : (if ep.id == episodeId then
        { ep with comments := toggleVoteInList ep.comments commentId userId vt }
        else ep) = ep := by
      by_cases hid : ep.id = episodeId
      · have hb : (ep.id == episodeId) = true := by simpa using hid
        rcases h with h | h
        · exact absurd hid (h ep (List.mem_cons_self ep rest))
        · rw [if_pos hb, toggleVoteInList_noop ep.comments commentId userId vt
            (h ep (List.mem_cons_self ep rest) hid)]
      · have hb : (ep.id == episodeId) = false := by simpa using hid
        simp [hb]
    simp only [toggleCommentVote, List.map_cons] at hrest ⊢
    rw [hhead, hrest]

/-- C9 (witness): a toggle aimed at an absent comment id leaves the concrete
episode list unchanged. -/
theorem toggleCommentVote_missing_noop_witness :
    toggleCommentVote [baseEpisode] "ep1" "nosuch" "u1" VoteType.like = [baseEpisode] :=
  toggleCommentVote_missing_noop [baseEpisode] "ep1" "nosuch" "u1" VoteType.like
    (Or.inr (by decide))

/-! ## The tree builder -/

/-- Pairwise-distinct comment ids (reducible, so that closed instances can be
checked by `decide`). -/
abbrev NodupIds (comments : List Comment) : Prop := (comments.map Comment.id).Nodup

theorem id_inj {comments : List Comment} (hn : NodupIds comments) {a b : Comment}
    (ha : a ∈ comments) (hb : b ∈ comments) (h : a.id = b.id) : a = b :=
  List.inj_on_of_nodup_map hn ha hb h

theorem mem_childrenOf {comments : List Comment} {pid : Option String} {c : Comment} :
    c ∈ childrenOf comments pid ↔ c ∈ comments ∧ c.parentId = pid := by
  simp [childrenOf, List.mem_insertionSort, List.mem_filter]

theorem childrenOf_perm (comments : List Comment) (pid : Option String) :
    List.Perm (childrenOf comments pid) (comments.filter (fun c => c.parentId == pid)) :=
  List.perm_insertionSort _ _

theorem comments_nodup {comments : List Comment} (hn : NodupIds comments) :
    comments.Nodup :=
  List.Nodup.of_map _ hn

theorem childrenOf_nodup {comments : List Comment} (hn : NodupIds comments)
    (pid : Option String) : (childrenOf comments pid).Nodup :=
  ((childrenOf_perm comments pid).nodup_iff).mpr ((comments_nodup hn).filter _)

theorem rootPayloads_forestOfChildren (g : Comment → CForest) (cs : List Comment) :
    rootPayloads (forestOfChildren g cs) = cs := by
  induction cs with
  | nil => rfl
  | cons c cs ih => simp [forestOfChildren, rootPayloads, CTree.payload, ih]

theorem forestNodes_forestOfChildren (g : Comment → CForest) (cs : List Comment) :
    forestNodes (forestOfChildren g cs) =
      cs.flatMap (fun c => CTree.node c (g c) :: forestNodes (g c)) := by
  induction cs with
  | nil => rfl
  | cons c cs ih =>
    simp only [forestOfChildren, forestNodes, treeNodes, ih, List.flatMap_cons]

theorem payloadsF_buildAux_succ (comments : List Comment) (fuel : Nat) (pid : Option String) :
    payloadsF (buildAux comments (fuel + 1) pid) =
      (childrenOf comments pid).flatMap
        (fun c => c :: payloadsF (buildAux comments fuel (some c.id))) := by
  simp only [payloadsF, buildAux, forestNodes_forestOfChildren, List.map_flatMap,
    List.map_cons, CTree.payload]

theorem payloadsF_buildAux_zero (comments : List Comment) (pid : Option String) :
    payloadsF (buildAux comments 0 pid) = [] := rfl

/-- Derivations of "comment c is selected somewhere strictly below the
recursion point pid": either directly (its parentId equals pid) or below one
of the comments d whose parentId equals pid, at chain depth n. -/
inductive DescN (comments : List Comment) : Option String → Comment → Nat → Prop where
  | here : ∀ {pid : Option String} {c : Comment},
      c ∈ comments → c.parentId = pid → DescN comments pid c 0
  | deeper : ∀ {pid : Option String} {d c : Comment} {n : Nat},
      d ∈ comments → d.parentId = pid → DescN comments (some d.id) c n →
      DescN comments pid c (n + 1)

theorem DescN.mem {comments : List Comment} {pid : Option String} {c : Comment} {n : Nat}
    (h : DescN comments pid c n) : c ∈ comments := by
  induction h with
  | here hc _ => exact hc
  | deeper _ _ _ ih => exact ih

theorem DescN.parent_shape {comments : List Comment} {pid : Option String} {c : Comment}
    {n : Nat} (h : DescN comments pid c n) :
    c.parentId = pid ∨ ∃ d ∈ comments, c.parentId = some d.id := by
  induction h with
  | here _ hp => exact Or.inl hp
  | deeper hd _ _ ih =>
    rcases ih with h1 | h1
    · exact Or.inr ⟨_, hd, h1⟩
    · exact Or.inr h1

theorem descN_of_mem_payloads (comments : List Comment) :
    ∀ (fuel : Nat) (pid : Option String) (x : Comment),
      x ∈ payloadsF (buildAux comments fuel pid) → ∃ n, DescN comments pid x n := by
  intro fuel
  induction fuel with
  | zero =>
    intro pid x hx
    rw [payloadsF_buildAux_zero] at hx
    exact absurd hx (List.not_mem_nil x)
  | succ fuel ih =>
    intro pid x hx
    rw [payloadsF_buildAux_succ] at hx
    rcases List.mem_flatMap.mp hx with ⟨d, hd, hxd⟩
    have hdm := mem_childrenOf.mp hd
    rcases List.mem_cons.mp hxd with rfl | hxs
    · exact ⟨0, DescN.here hdm.1 hdm.2⟩
    · rcases ih (some d.id) x hxs with ⟨n, hn⟩
      exact ⟨n + 1, DescN.deeper hdm.1 hdm.2 hn⟩

/-- C5: a comment whose `parentId` is non-null and equal to no `id` in the
collection appears nowhere in the rendered forest.  (`buildForest` is a total
function: malformed `parentId` values raise nothing, they only produce empty
child selections.) -/
theorem orphan_excluded (comments : List Comment) (c : Comment) (p : String)
    (hp : c.parentId = some p) (horphan : ∀ d ∈ comments, d.id ≠ p) :
    c ∉ payloadsF (buildForest comments) := by
  intro hmem
  rcases descN_of_mem_payloads comments (comments.length + 1) none c hmem with ⟨n, hn⟩
  rcases hn.parent_shape with h1 | ⟨d, hd, h1⟩
  · rw [hp] at h1
    exact Option.noConfusion h1
  · rw [hp] at h1
    exact horphan d hd (Option.some.inj h1).symm

/-- C5 (witness): the orphan comment "d" (parentId "zzz") of the spec's
example scenario is absent from the rendered forest of its collection. -/
theorem orphan_excluded_witness :
    { baseComment with id := "d", parentId := some "zzz", createdAt := 300 } ∉
      payloadsF (buildForest
        [baseComment,
         { baseComment with id := "b", parentId := some "a", createdAt := 200 },
         { baseComment with id := "c", createdAt := 50 },
         { baseComment with id := "d", parentId := some "zzz", createdAt := 300 }]) :=
  orphan_excluded _ _ "zzz" rfl (by decide)

/-- The recursion contexts the root call of `CommentTree` can reach: the
reversed path of comments already rendered on the way down to the current
`parentId` value, most recent first. -/
inductive RPath (comments : List Comment) : List Comment → Option String → Prop where
  | nil : RPath comments [] none
  | cons : ∀ {path : List Comment} {pid : Option String} {c : Comment},
      RPath comments path pid → c ∈ comments → c.parentId = pid → c ∉ path →
      RPath comments (c :: path) (some c.id)

theorem RPath.subset {comments path : List Comment} {pid : Option String}
    (h : RPath comments path pid) : path ⊆ comments := by
  induction h with
  | nil => exact List.nil_subset _
  | cons _ hc _ _ ih => exact List.cons_subset.mpr ⟨hc, ih⟩

theorem RPath.nodup {comments path : List Comment} {pid : Option String}
    (h : RPath comments path pid) : path.Nodup := by
  induction h with
  | nil => exact List.nodup_nil
  | cons _ _ _ hnotin ih => exact List.nodup_cons.mpr ⟨hnotin, ih⟩

theorem RPath.length_le {comments path : List Comment} {pid : Option String}
    (h : RPath comments path pid) : path.length ≤ comments.length :=
  (List.subperm_of_subset h.nodup h.subset).length_le

theorem RPath.parent_mem {comments path : List Comment} {pid : Option String}
    (h : RPath comments path pid) :
    ∀ c ∈ path, c.parentId = none ∨ ∃ y ∈ path, c.parentId = some y.id := by
  induction h with
  | nil =>
    intro c hc
    exact absurd hc (List.not_mem_nil c)
  | cons hpath hc hp _ ih =>
    intro x hx
    rcases List.mem_cons.mp hx with rfl | hx
    · cases hpath with
      | nil => exact Or.inl hp
      | cons hpath' hg hgp hgnotin =>
        exact Or.inr ⟨_, List.mem_cons_of_mem _ (List.mem_cons_self _ _), hp⟩
    · rcases ih x hx with h1 | ⟨y, hy, h1⟩
      · exact Or.inl h1
      · exact Or.inr ⟨y, List.mem_cons_of_mem _ hy, h1⟩

/-- With pairwise-distinct ids, a comment whose `parentId` equals the current
recursion point is not already on the path: ids cannot repeat along any
recursion path of the tree builder. -/
theorem not_mem_rpath {comments path : List Comment} {pid : Option String}
    (hn : NodupIds comments) (h : RPath comments path pid) {c : Comment}
    (_hc : c ∈ comments) (hp : c.parentId = pid) : c ∉ path := by
  cases h with
  | nil => exact List.not_mem_nil c
  | cons hpath hd hdp hdnotin =>
    rename_i path' pid' d
    intro hmem
    rcases List.mem_cons.mp hmem with heq | hmem
    · subst heq
      cases hpath with
      | nil =>
        rw [hdp] at hp
        exact Option.noConfusion hp
      | cons hpath2 hg hgp hgnotin =>
        rename_i path'' pid'' g
        have hgid : g.id = c.id := Option.some.inj (hdp.symm.trans hp)
        have hgd : g = c := id_inj hn hg hd hgid
        exact hdnotin (hgd ▸ List.mem_cons_self g path'')
    · rcases hpath.parent_mem c hmem with h1 | ⟨y, hy, h1⟩
      · rw [h1] at hp
        exact Option.noConfusion hp
      · have hyid : y.id = d.id := Option.some.inj (h1.symm.trans hp)
        have hyd : y = d := id_inj hn (hpath.subset hy) hd hyid
        exact hdnotin (hyd ▸ hy)

theorem forestOfChildren_congr {g₁ g₂ : Comment → CForest} {cs : List Comment}
    (h : ∀ c ∈ cs, g₁ c = g₂ c) : forestOfChildren g₁ cs = forestOfChildren g₂ cs := by
  induction cs with
  | nil => rfl
  | cons c cs ih =>
    simp only [forestOfChildren, h c (List.mem_cons_self c cs),
      ih (fun d hd => h d (List.mem_cons_of_mem c hd))]

theorem buildAux_fuel_stable {comments : List Comment} (hn : NodupIds comments) :
    ∀ (f : Nat) {g : Nat} {path : List Comment} {pid : Option String},
      RPath comments path pid →
      comments.length + 1 - path.length ≤ f →
      comments.length + 1 - path.length ≤ g →
      buildAux comments f pid = buildAux comments g pid := by
  intro f
  induction f with
  | zero =>
    intro g path pid hpath hf hg
    have hlen := hpath.length_le
    omega
  | succ f ih =>
    intro g path pid hpath hf hg
    have hlen := hpath.length_le
    obtain ⟨g', rfl⟩ : ∃ g', g = g' + 1 := by
      cases g with
      | zero => omega
      | succ g' => exact ⟨g', rfl⟩
    simp only [buildAux]
    apply forestOfChildren_congr
    intro c hcmem
    have hcm := mem_childrenOf.mp hcmem
    have hpath' : RPath comments (c :: path) (some c.id) :=
      RPath.cons hpath hcm.1 hcm.2 (not_mem_rpath hn hpath hcm.1 hcm.2)
    have hlen' := hpath'.length_le
    simp only [List.length_cons] at hlen'
    exact ih hpath' (by simp only [List.length_cons]; omega)
      (by simp only [List.length_cons]; omega)

/-- C10: with pairwise-distinct ids, every fuel of at least `length + 1`
produces the same forest as `buildForest` — the source recursion, which
carries no decreasing argument, terminates within depth `length` because no
comment id repeats along any recursion path, and this holds even when
`parentId` references form a cycle: comments on a cycle are simply never
reached from the root call with `parentId` null. -/
theorem buildForest_fuel_stable (comments : List Comment) (hn : NodupIds comments)
    (f : Nat) (hf : comments.length + 1 ≤ f) :
    buildAux comments f none = buildForest comments := by
  unfold buildForest
  exact buildAux_fuel_stable hn f RPath.nil (by simpa using hf) (by simp)

/-- A comment on a two-cycle of parentId references, for closed instances. -/
def cycA : Comment := { baseComment with id := "x", parentId := some "y" }

/-- The other comment of the two-cycle. -/
def cycB : Comment := { baseComment with id := "y", parentId := some "x" }

/-- C10 (witness): on a collection containing a parentId two-cycle plus one
root, any larger fuel gives the forest `buildForest` gives. -/
theorem buildForest_fuel_stable_witness :
    buildAux [cycA, cycB, baseComment] 10 none = buildForest [cycA, cycB, baseComment] :=
  buildForest_fuel_stable [cycA, cycB, baseComment] (by decide) 10 (by decide)

theorem DescN.linear {comments : List Comment} {s : Option String} {c : Comment} {n : Nat}
    (h : DescN comments s c n) :
    c.parentId = s ∨
      ∃ p m, p ∈ comments ∧ c.parentId = some p.id ∧ DescN comments s p m ∧ m < n := by
  induction h with
  | here _ hp => exact Or.inl hp
  | deeper hd hdp _ ih =>
    rcases ih with h1 | ⟨p, m, hpmem, hpp, hpd, hml⟩
    · exact Or.inr ⟨_, 0, hd, h1, DescN.here hd hdp, Nat.succ_pos _⟩
    · exact Or.inr ⟨p, m + 1, hpmem, hpp, DescN.deeper hd hdp hpd, Nat.succ_lt_succ hml⟩

theorem not_descN_of_root {comments : List Comment} {x : Comment}
    (hx : x.parentId = none) : ∀ (n : Nat) (s : String), ¬ DescN comments (some s) x n := by
  intro n
  induction n using Nat.strong_induction_on with
  | _ n ih =>
    intro s hdesc
    cases hdesc with
    | here _ hp =>
      rw [hx] at hp
      exact Option.noConfusion hp
    | deeper hd hdp hinner => exact ih _ (Nat.lt_succ_self _) _ hinner

/-- A descent from the recursion point into a comment already on the path can
only land strictly deeper on the path: the referenced id belongs to a comment
below the decomposition point. -/
theorem descN_path_mem {comments : List Comment} (hn : NodupIds comments)
    {path : List Comment} {pid : Option String} (hpath : RPath comments path pid) :
    ∀ (path₁ : List Comment) (x : Comment) (path₂ : List Comment),
      path = path₁ ++ x :: path₂ →
      ∀ {t : String} {n : Nat}, DescN comments (some t) x n → ∃ y ∈ path₂, y.id = t := by
  induction hpath with
  | nil =>
    intro path₁ x path₂ heq t n _
    exact absurd heq (by simp)
  | cons hpath hd hdp hdnotin ih =>
    rename_i path' pid' d
    intro path₁ x path₂ heq t n hdesc
    cases path₁ with
    | nil =>
      simp only [List.nil_append, List.cons.injEq] at heq
      obtain ⟨rfl, rfl⟩ := heq
      cases hpath with
      | nil => exact absurd hdesc (not_descN_of_root hdp n t)
      | cons hpath2 hg hgp hgnotin =>
        rename_i path'' pid'' g
        rcases hdesc.linear with h1 | ⟨p, m, hpmem, hpp, hpd, hml⟩
        · exact ⟨g, List.mem_cons_self g path'', Option.some.inj (hdp.symm.trans h1)⟩
        · have hpg : p = g := id_inj hn hpmem hg (Option.some.inj (hpp.symm.trans hdp))
          subst hpg
          rcases ih [] p path'' rfl hpd with ⟨y, hy, hyt⟩
          exact ⟨y, List.mem_cons_of_mem _ hy, hyt⟩
    | cons z path₁ =>
      simp only [List.cons_append, List.cons.injEq] at heq
      obtain ⟨rfl, heq'⟩ := heq
      exact ih path₁ x path₂ heq' hdesc

/-- No comment whose `parentId` equals the current recursion point is a
descendant of the subtree rooted at such a comment (itself included): sibling
subtrees cannot capture a sibling. -/
theorem descN_sibling_false {comments : List Comment} (hn : NodupIds comments)
    {path : List Comment} {pid : Option String} (hpath : RPath comments path pid)
    {d e : Comment} (hd : d ∈ comments) (hdp : d.parentId = pid)
    (he : e ∈ comments) (hep : e.parentId = pid)
    {n : Nat} (hdesc : DescN comments (some d.id) e n) : False := by
  have hpath' : RPath comments (e :: path) (some e.id) :=
    RPath.cons hpath he hep (not_mem_rpath hn hpath he hep)
  rcases descN_path_mem hn hpath' [] e path rfl hdesc with ⟨y, hy, hyid⟩
  have hyd : y = d := id_inj hn (hpath.subset hy) hd hyid
  exact (not_mem_rpath hn hpath hd hdp) (hyd ▸ hy)

/-- Subtrees of two distinct siblings of the same recursion point share no
comment. -/
theorem descN_disjoint {comments : List Comment} (hn : NodupIds comments)
    {path : List Comment} {pid : Option String} (hpath : RPath comments path pid) :
    ∀ (k : Nat) {d₁ d₂ c : Comment} {n₁ n₂ : Nat}, n₁ + n₂ ≤ k →
      d₁ ∈ comments → d₂ ∈ comments → d₁.parentId = pid → d₂.parentId = pid →
      d₁ ≠ d₂ → DescN comments (some d₁.id) c n₁ → DescN comments (some d₂.id) c n₂ →
      False := by
  intro k
  induction k using Nat.strong_induction_on with
  | _ k ih =>
    intro d₁ d₂ c n₁ n₂ hk h1m h2m h1p h2p hne hd1 hd2
    rcases hd1.linear with ha | ⟨p₁, m₁, hp₁m, hp₁p, hp₁d, hm₁⟩
    · rcases hd2.linear with hb | ⟨p₂, m₂, hp₂m, hp₂p, hp₂d, hm₂⟩
      · exact hne (id_inj hn h1m h2m (Option.some.inj (ha.symm.trans hb)))
      · have hp₂d₁ : p₂ = d₁ := id_inj hn hp₂m h1m (Option.some.inj (hp₂p.symm.trans ha))
        subst hp₂d₁
        exact descN_sibling_false hn hpath h2m h2p h1m h1p hp₂d
    · rcases hd2.linear with hb | ⟨p₂, m₂, hp₂m, hp₂p, hp₂d, hm₂⟩
      · have hp₁d₂ : p₁ = d₂ := id_inj hn hp₁m h2m (Option.some.inj (hp₁p.symm.trans hb))
        subst hp₁d₂
        exact descN_sibling_false hn hpath h1m h1p h2m h2p hp₁d
      · have hpp : p₁ = p₂ := id_inj hn hp₁m hp₂m (Option.some.inj (hp₁p.symm.trans hp₂p))
        subst hpp
        exact ih (m₁ + m₂) (by omega) (Nat.le_refl _) h1m h2m h1p h2p hne hp₁d hp₂d

/-- With pairwise-distinct ids, no comment is displayed twice below any
reachable recursion point. -/
theorem payloadsF_nodup {comments : List Comment} (hn : NodupIds comments) :
    ∀ (fuel : Nat) {path : List Comment} {pid : Option String},
      RPath comments path pid → (payloadsF (buildAux comments fuel pid)).Nodup := by
  intro fuel
  induction fuel with
  | zero =>
    intro path pid _
    rw [payloadsF_buildAux_zero]
    exact List.nodup_nil
  | succ fuel ih =>
    intro path pid hpath
    rw [payloadsF_buildAux_succ, List.nodup_flatMap]
    constructor
    · intro d hd
      have hdm := mem_childrenOf.mp hd
      have hpath' := RPath.cons hpath hdm.1 hdm.2 (not_mem_rpath hn hpath hdm.1 hdm.2)
      refine List.nodup_cons.mpr ⟨?_, ih hpath'⟩
      intro hmem
      rcases descN_of_mem_payloads comments fuel (some d.id) d hmem with ⟨n, hdesc⟩
      exact descN_sibling_false hn hpath hdm.1 hdm.2 hdm.1 hdm.2 hdesc
    · refine (childrenOf_nodup hn pid).imp_of_mem ?_
      intro a b ha hb hab
      have ham := mem_childrenOf.mp ha
      have hbm := mem_childrenOf.mp hb
      intro x hxa hxb
      rcases List.mem_cons.mp hxa with rfl | hxa
      · rcases List.mem_cons.mp hxb with heq | hxb
        · exact hab heq
        · rcases descN_of_mem_payloads comments fuel (some b.id) x hxb with ⟨n, hdesc⟩
          exact descN_sibling_false hn hpath hbm.1 hbm.2 ham.1 ham.2 hdesc
      · rcases List.mem_cons.mp hxb with heq | hxb
        · subst heq
          rcases descN_of_mem_payloads comments fuel (some a.id) x hxa with ⟨n, hdesc⟩
          exact descN_sibling_false hn hpath ham.1 ham.2 hbm.1 hbm.2 hdesc
        · rcases descN_of_mem_payloads comments fuel (some a.id) x hxa with ⟨n₁, hd1⟩
          rcases descN_of_mem_payloads comments fuel (some b.id) x hxb with ⟨n₂, hd2⟩
          exact descN_disjoint hn hpath (n₁ + n₂) (Nat.le_refl _)
            ham.1 hbm.1 ham.2 hbm.2 hab hd1 hd2

theorem mem_comments_of_mem_payloads {comments : List Comment} {fuel : Nat}
    {pid : Option String} {x : Comment}
    (hx : x ∈ payloadsF (buildAux comments fuel pid)) : x ∈ comments := by
  rcases descN_of_mem_payloads comments fuel pid x hx with ⟨n, hdesc⟩
  exact hdesc.mem

/-- Chains of parent links grounding a comment at a top-level comment:
`ReachN comments c n` means c is in the collection and reaches a comment with
null `parentId` in n parent steps inside the collection. -/
inductive ReachN (comments : List Comment) : Comment → Nat → Prop where
  | root : ∀ {c : Comment}, c ∈ comments → c.parentId = none → ReachN comments c 0
  | step : ∀ {c p : Comment} {n : Nat}, c ∈ comments → p ∈ comments →
      c.parentId = some p.id → ReachN comments p n → ReachN comments c (n + 1)

theorem reachN_mem_payloads {comments : List Comment} {c : Comment} {n : Nat}
    (hreach : ReachN comments c n) :
    ∀ (fuel : Nat) (x : Comment),
      x = c ∨ x ∈ payloadsF (buildAux comments fuel (some c.id)) →
      x ∈ payloadsF (buildAux comments (n + 1 + fuel) none) := by
  induction hreach with
  | root hc hp =>
    rename_i c₀
    intro fuel x hx
    have he : 0 + 1 + fuel = fuel + 1 := by omega
    rw [he, payloadsF_buildAux_succ]
    refine List.mem_flatMap.mpr ⟨c₀, mem_childrenOf.mpr ⟨hc, hp⟩, ?_⟩
    rcases hx with rfl | hx
    · exact List.mem_cons_self _ _
    · exact List.mem_cons_of_mem _ hx
  | step hc hpm hp hr ih =>
    rename_i c₀ p₀ n₀
    intro fuel x hx
    have he : n₀ + 1 + 1 + fuel = n₀ + 1 + (fuel + 1) := by omega
    rw [he]
    refine ih (fuel + 1) x (Or.inr ?_)
    rw [payloadsF_buildAux_succ]
    refine List.mem_flatMap.mpr ⟨c₀, mem_childrenOf.mpr ⟨hc, hp⟩, ?_⟩
    rcases hx with rfl | hx
    · exact List.mem_cons_self _ _
    · exact List.mem_cons_of_mem _ hx

theorem buildForest_complete {comments : List Comment} (hn : NodupIds comments)
    (hr : ∀ c ∈ comments, ∃ n, ReachN comments c n) :
    comments ⊆ payloadsF (buildForest comments) := by
  intro c hc
  rcases hr c hc with ⟨n, hreach⟩
  have h := reachN_mem_payloads hreach comments.length c (Or.inl rfl)
  rwa [buildForest_fuel_stable comments hn _ (by omega)] at h

theorem buildForest_payloads_perm {comments : List Comment} (hn : NodupIds comments)
    (hr : ∀ c ∈ comments, ∃ n, ReachN comments c n) :
    List.Perm (payloadsF (buildForest comments)) comments :=
  List.Subperm.antisymm
    (List.subperm_of_subset (payloadsF_nodup hn _ RPath.nil)
      (fun _ hx => mem_comments_of_mem_payloads hx))
    (List.subperm_of_subset (comments_nodup hn) (buildForest_complete hn hr))

/-- Every node of the forest built with enough fuel lists, as its children,
exactly the comments whose `parentId` is the node's id (up to the sorted
order). -/
theorem node_children_perm {comments : List Comment} (hn : NodupIds comments) :
    ∀ (fuel : Nat) {path : List Comment} {pid : Option String},
      RPath comments path pid → comments.length + 1 - path.length ≤ fuel →
      ∀ node ∈ forestNodes (buildAux comments fuel pid),
        List.Perm (rootPayloads node.children)
          (comments.filter (fun c => c.parentId == some node.payload.id)) := by
  intro fuel
  induction fuel with
  | zero =>
    intro path pid hpath hb node hmem
    have := hpath.length_le
    omega
  | succ fuel ih =>
    intro path pid hpath hb node hmem
    rw [buildAux, forestNodes_forestOfChildren] at hmem
    rcases List.mem_flatMap.mp hmem with ⟨d, hd, hnode⟩
    have hdm := mem_childrenOf.mp hd
    have hpath' := RPath.cons hpath hdm.1 hdm.2 (not_mem_rpath hn hpath hdm.1 hdm.2)
    have hlen' := hpath'.length_le
    rcases List.mem_cons.mp hnode with rfl | hnode
    · simp only [CTree.children, CTree.payload]
      cases fuel with
      | zero =>
        simp only [List.length_cons] at hlen'
        have := hpath.length_le
        omega
      | succ fuel' =>
        rw [buildAux, rootPayloads_forestOfChildren]
        exact childrenOf_perm comments (some d.id)
    · refine ih hpath' ?_ node hnode
      simp only [List.length_cons] at hlen'
      simp only [List.length_cons]
      omega

/-- C1 (amended): for every collection with pairwise-distinct ids in which
every comment reaches a top-level comment through `parentId` links inside the
collection (so every non-null `parentId` resolves and no comment hangs from a
`parentId` cycle), the forest `buildForest` produces has exactly as many nodes
as the collection has comments, and every node's children are exactly (as the
sorted rearrangement of) the comments whose `parentId` equals that node's
id. -/
theorem buildForest_correct (comments : List Comment) (hn : NodupIds comments)
    (hr : ∀ c ∈ comments, ∃ n, ReachN comments c n) :
    (forestNodes (buildForest comments)).length = comments.length ∧
    ∀ node ∈ forestNodes (buildForest comments),
      List.Perm (rootPayloads node.children)
        (comments.filter (fun c => c.parentId == some node.payload.id)) := by
  constructor
  · have hperm := buildForest_payloads_perm hn hr
    have hlen : (payloadsF (buildForest comments)).length = comments.length :=
      hperm.length_eq
    rwa [payloadsF, List.length_map] at hlen
  · exact node_children_perm hn (comments.length + 1) RPath.nil (by omega)

/-- A single comment whose `parentId` is its own id. -/
def selfLoop : Comment := { baseComment with id := "x", parentId := some "x" }

/-- C1 (counterexample): the one-element collection holding a comment whose
`parentId` is its own id satisfies the claim's hypothesis (every non-null
`parentId` equals the id of some comment of the collection), yet the produced
forest has 0 nodes, not 1. -/
theorem buildForest_count_cex :
    (∀ c ∈ [selfLoop], c.parentId = none ∨ ∃ d ∈ [selfLoop], c.parentId = some d.id) ∧
    (forestNodes (buildForest [selfLoop])).length ≠ [selfLoop].length := by
  decide

/-- A reply to `baseComment`, for closed instances. -/
def childB : Comment := { baseComment with id := "b", parentId := some "a", createdAt := 200 }

/-- C1 (witness): the amended statement at a concrete two-comment thread. -/
theorem buildForest_correct_witness :
    (forestNodes (buildForest [baseComment, childB])).length = 2 := by
  have hr : ∀ c ∈ [baseComment, childB], ∃ n, ReachN [baseComment, childB] c n := by
    intro c hc
    rcases List.mem_cons.mp hc with rfl | hc
    · exact ⟨0, ReachN.root (List.mem_cons_self _ _) rfl⟩
    rcases List.mem_cons.mp hc with rfl | hc
    · exact ⟨1, ReachN.step (List.mem_cons_of_mem _ (List.mem_cons_self _ _))
        (List.mem_cons_self _ _) rfl (ReachN.root (List.mem_cons_self _ _) rfl)⟩
    · exact absurd hc (List.not_mem_nil c)
  exact (buildForest_correct [baseComment, childB] (by decide) hr).1

/-- Every node of any built forest carries, as its children, a forest the
builder produced for its own id at some remaining fuel. -/
theorem node_children_shape (comments : List Comment) :
    ∀ (fuel : Nat) (pid : Option String) (node : CTree),
      node ∈ forestNodes (buildAux comments fuel pid) →
      ∃ f', node.children = buildAux comments f' (some node.payload.id) := by
  intro fuel
  induction fuel with
  | zero =>
    intro pid node h
    exact absurd h (List.not_mem_nil node)
  | succ fuel ih =>
    intro pid node h
    rw [buildAux, forestNodes_forestOfChildren] at h
    rcases List.mem_flatMap.mp h with ⟨d, _, hnode⟩
    rcases List.mem_cons.mp hnode with rfl | hnode
    · exact ⟨fuel, rfl⟩
    · exact ih (some d.id) node hnode

theorem rootPayloads_sorted (comments : List Comment) (fuel : Nat) (pid : Option String) :
    List.Pairwise createdAtLE (rootPayloads (buildAux comments fuel pid)) := by
  cases fuel with
  | zero => exact List.Pairwise.nil
  | succ fuel =>
    rw [buildAux, rootPayloads_forestOfChildren]
    unfold childrenOf
    exact List.sorted_insertionSort createdAtLE _

theorem rootPayloads_ties (comments : List Comment) (fuel : Nat) (pid : Option String)
    (t : Nat) :
    List.Sublist
      ((rootPayloads (buildAux comments fuel pid)).filter (fun c => c.createdAt == t))
      (comments.filter (fun c => c.parentId == pid)) := by
  cases fuel with
  | zero => exact List.nil_sublist _
  | succ fuel =>
    rw [buildAux, rootPayloads_forestOfChildren]
    unfold childrenOf
    have h1 : ((comments.filter (fun c => c.parentId == pid)).filter
        (fun c => c.createdAt == t)).Pairwise createdAtLE := by
      apply List.pairwise_of_forall_mem_list
      intro a ha b hb
      have ha' := (List.mem_filter.mp ha).2
      have hb' := (List.mem_filter.mp hb).2
      simp only [beq_iff_eq] at ha' hb'
      unfold createdAtLE
      omega
    have h2 := List.sublist_insertionSort h1 (List.filter_sublist _)
    have h3 := h2.filter (fun c => c.createdAt == t)
    have h4 : ((comments.filter (fun c => c.parentId == pid)).filter
          (fun c => c.createdAt == t)).filter (fun c => c.createdAt == t) =
        (comments.filter (fun c => c.parentId == pid)).filter
          (fun c => c.createdAt == t) :=
      List.filter_eq_self.mpr (fun a ha => (List.mem_filter.mp ha).2)
    rw [h4] at h3
    have h5 : List.Perm
        (((comments.filter (fun c => c.parentId == pid)).insertionSort
          createdAtLE).filter (fun c => c.createdAt == t))
        ((comments.filter (fun c => c.parentId == pid)).filter
          (fun c => c.createdAt == t)) :=
      (List.perm_insertionSort _ _).filter _
    have h6 := h3.eq_of_length h5.length_eq.symm
    rw [← h6]
    exact List.filter_sublist _

/-- C4: at every level of the built forest — the root level and the children
of every node — the displayed sibling order is non-decreasing by `createdAt`,
and the siblings sharing any one `createdAt` value appear as a subsequence of
the input collection's sibling selection, i.e. in their relative input
order. -/
theorem buildForest_sibling_order (comments : List Comment) :
    (List.Pairwise createdAtLE (rootPayloads (buildForest comments)) ∧
      ∀ t, List.Sublist
        ((rootPayloads (buildForest comments)).filter (fun c => c.createdAt == t))
        (comments.filter (fun c => c.parentId == none))) ∧
    ∀ node ∈ forestNodes (buildForest comments),
      List.Pairwise createdAtLE (rootPayloads node.children) ∧
      ∀ t, List.Sublist
        ((rootPayloads node.children).filter (fun c => c.createdAt == t))
        (comments.filter (fun c => c.parentId == some node.payload.id)) := by
  refine ⟨⟨rootPayloads_sorted _ _ _, fun t => rootPayloads_ties _ _ _ t⟩, ?_⟩
  intro node hnode
  rcases node_children_shape comments _ _ node hnode with ⟨f', hf'⟩
  rw [hf']
  exact ⟨rootPayloads_sorted _ _ _, fun t => rootPayloads_ties _ _ _ t⟩

end PPBlog

